import Mathlib

/-
Verification of the collaborative sequence-editing engine repository
(routerlicious merge-tree stress driver, common logger definitions, gitrest
repository manager).

Each component of the source is shallowly embedded as executable Lean
definitions and the specified properties are proved about them.  JavaScript
strings are modelled as `String`/`List Char`, JS numbers as `Int`/`Nat`
(no fractional arithmetic is relevant to any claim), fallible promises as
`Except String`, and mutable object state by explicit state passing.
-/

namespace Logger

/-- Model of a JavaScript runtime value, sufficient for the `typeof`-based
type guard in common-definitions/src/logger.ts.  Objects carry their own
string-keyed fields; functions, numbers, booleans and strings are kept
abstract where their payload is irrelevant to `typeof`. -/
inductive JSVal where
  | vnull
  | vundefined
  | vstr (s : String)
  | vnum
  | vbool (b : Bool)
  | vfun
  | vobj (fields : List (String × JSVal))

/-- JavaScript `typeof` operator: note `typeof null` is `"object"` while
`typeof undefined` is `"undefined"`, and functions answer `"function"`. -/
def jsTypeof : JSVal → String
  | .vnull => "object"
  | .vundefined => "undefined"
  | .vstr _ => "string"
  | .vnum => "number"
  | .vbool _ => "boolean"
  | .vfun => "function"
  | .vobj _ => "object"

/-- Field lookup in a JS object's own fields. -/
def fieldLookup (k : String) : List (String × JSVal) → Option JSVal
  | [] => none
  | (k', v) :: rest => if k' = k then some v else fieldLookup k rest

/-- Optional-chained member access `x?.f`: `null`/`undefined` receivers give
`undefined` instead of throwing; a missing field reads as `undefined`;
property access on primitives (string, number, boolean, function) finds no
own field here and gives `undefined`. -/
def optMember (x : JSVal) (f : String) : JSVal :=
  match x with
  | .vobj fields => (fieldLookup f fields).getD .vundefined
  | _ => .vundefined

/-- Translation of `isTaggedTelemetryPropertyValue` from
common-definitions/src/logger.ts line 91-93:
`typeof(x?.value) !== "object" && typeof(x?.tag) === "string"`.
It is a total function: optional chaining means it never throws. -/
def isTaggedTelemetryPropertyValue (x : JSVal) : Bool :=
  decide (jsTypeof (optMember x "value") ≠ "object") &&
  decide (jsTypeof (optMember x "tag") = "string")

/-- Translation of `TelemetryEventPropertyType` from logger.ts line 12:
`string | number | boolean | undefined`.  A function is none of these. -/
def isTelemetryEventPropertyType (x : JSVal) : Bool :=
  match x with
  | .vstr _ => true
  | .vnum => true
  | .vbool _ => true
  | .vundefined => true
  | _ => false

end Logger

namespace Messages

/-- String identifying the raw operation message (core/messages.ts line 5). -/
def RawOperationType : String := "RawOperation"

/-- String identifying the sequenced operation message (core/messages.ts line 8). -/
def SequencedOperationType : String := "SequencedOperation"

/-- String identifying system messages (core/messages.ts line 10). -/
def SystemType : String := "System"

/-- Modelled from the spec: `IAuthenticatedUser` lives in core-utils, which is
not part of the available source; the spec only uses it as an opaque user
identity carried on the envelope. -/
structure IAuthenticatedUser where
  userId : String
deriving DecidableEq

/-- Modelled from the spec: the operation payload "identifies kind
(insert/remove/annotate/system) and positions" (spec section 6). -/
inductive MessageKind where
  | insertKind
  | removeKind
  | annotateKind
  | systemKind
deriving DecidableEq

/-- Modelled from the spec: `api.IDocumentMessage` (api-core is not in the
available source) is the client-submitted operation, carrying the kind,
position and the client's reference sequence number. -/
structure IDocumentMessage where
  clientSequenceNumber : Int
  referenceSequenceNumber : Int
  kind : MessageKind
  position : Nat
deriving DecidableEq

/-- Modelled from the spec: `api.ISequencedDocumentMessage` is the
authority-stamped operation carrying its final `sequenceNumber`
(spec section 6: "sequenced (authority-stamped, carrying final
`sequenceNumber`) form"). -/
structure ISequencedDocumentMessage where
  sequenceNumber : Nat
  clientId : String
  referenceSequenceNumber : Int
  kind : MessageKind
  position : Nat
deriving DecidableEq

/-- Translation of `IRawOperationMessage` (core/messages.ts lines 42-71,
flattening the `IObjectMessage` and `IMessage` base interfaces): type tag,
submitting user, document id, client id, server receive timestamp in
milliseconds, and the submitted operation. -/
structure IRawOperationMessage where
  type : String
  user : IAuthenticatedUser
  documentId : String
  clientId : String
  timestamp : Int
  operation : IDocumentMessage
deriving DecidableEq

/-- Translation of `ISequencedOperationMessage` (core/messages.ts lines
73-84, flattening `ITicketedMessage`): type tag, document id and the
sequenced operation. -/
structure ISequencedOperationMessage where
  type : String
  documentId : String
  operation : ISequencedDocumentMessage
deriving DecidableEq

end Messages

namespace GitRest

/-- Opaque model of a nodegit `git.Repository` handle; a handle is identified
by the directory it was created or opened at. -/
structure Repo where
  dir : String
deriving DecidableEq

/-- External collaborator `git.Repository.init(dir, 1)`: yields a usable
repository handle for `dir` (nodegit is outside the repository). -/
def gitInit (dir : String) : Repo := ⟨dir⟩

/-- External collaborator `git.Repository.open(dir)`: yields a usable
repository handle for `dir`. -/
def gitOpen (dir : String) : Repo := ⟨dir⟩

/-- Model of Node's `path.parse` (posix), returning the `dir` and `base`
fields.  Following Node's parser: a leading `/` is the root; scanning from
the end, trailing slashes are skipped, the basename is the run of
non-slash characters before them, and `dir` is everything before the slash
that precedes the basename (the root alone if only the root precedes it,
empty if nothing does). -/
def posixParse (p : String) : String × String :=
  if p = "" then ("", "")
  else
    let cs := p.toList
    let isAbs : Bool := cs.head? = some '/'
    let body := if isAbs then cs.drop 1 else cs
    let rev := body.reverse
    let rev1 := rev.dropWhile (fun c => c = '/')
    let base := (rev1.takeWhile (fun c => c ≠ '/')).reverse
    let restRev := rev1.dropWhile (fun c => c ≠ '/')
    let dir :=
      if restRev.isEmpty then (if isAbs then "/" else "")
      else (if isAbs then "/" else "") ++ String.mk ((restRev.drop 1).reverse)
    (dir, String.mk base)

/-- The `dir` field of `path.parse(p)`. -/
def posixDir (p : String) : String := (posixParse p).1

/-- The `base` field of `path.parse(p)`. -/
def posixBase (p : String) : String := (posixParse p).2

/-- The repository cache `{ [key: string]: Promise<git.Repository> }`: its own
(written) entries, as an association list.  All stored promises in the
source are resolved repository promises, so entries hold handles. -/
def Cache : Type := List (String × Repo)

/-- Own-property lookup in the cache. -/
def findOwn (cache : List (String × Repo)) (k : String) : Option Repo :=
  match cache with
  | [] => none
  | (k', r) :: rest => if k' = k then some r else findOwn rest k

/-- Own-property assignment `cache[k] = r` (overwrites an existing entry). -/
def setOwn (cache : List (String × Repo)) (k : String) (r : Repo) :
    List (String × Repo) :=
  match cache with
  | [] => [(k, r)]
  | (k', r') :: rest =>
    if k' = k then (k, r) :: rest else (k', r') :: setOwn rest k r

/-- The own property names of `Object.prototype`: an object literal `{}`
inherits these, so JavaScript's `in` operator answers true for them even
on an empty cache. -/
def protoProps : List String :=
  ["constructor", "hasOwnProperty", "isPrototypeOf", "propertyIsEnumerable",
   "toLocaleString", "toString", "valueOf", "__defineGetter__",
   "__defineSetter__", "__lookupGetter__", "__lookupSetter__", "__proto__"]

/-- JavaScript's `k in cache` for the object-literal cache: true for own
entries and for properties inherited from `Object.prototype`. -/
def jsIn (cache : List (String × Repo)) (k : String) : Bool :=
  (findOwn cache k).isSome || protoProps.contains k

/-- The external file system consulted by `util.promisify(fs.exists)`. -/
structure FileSys where
  dirExists : String → Bool

/-- A value the `open` promise can resolve with: either a repository handle,
or (when the cache membership test succeeded only through the prototype
chain) the property inherited from `Object.prototype`, which is not a
repository. -/
inductive OpenVal where
  | repo (r : Repo)
  | inherited (name : String)
deriving DecidableEq

/-- Whether a settled promise was rejected. -/
def isErr {α : Type} : Except String α → Bool
  | .error _ => true
  | .ok _ => false

/-- Translation of `RepositoryManager.create` (gitrest/src/utils.ts lines
64-74).  Rejects with "Invalid repo name" when `path.parse(name).dir` is
nonempty; otherwise inits a bare repository at `baseDir/base` and caches
it.  The source function body has no `return` statement after caching, so
the promise (despite the declared type `Promise<git.Repository>`) resolves
with `undefined`, modelled as `none`.  The function returns the rejection
or resolution value together with the cache after the call. -/
def create (baseDir : String) (cache : List (String × Repo)) (name : String) :
    Except String (Option Repo) × List (String × Repo) :=
  let dir := posixDir name
  if dir ≠ "" then (.error "Invalid repo name", cache)
  else
    let base := posixBase name
    let repository := gitInit (baseDir ++ "/" ++ base)
    (.ok none, setOwn cache base repository)

/-- Translation of `RepositoryManager.open` (gitrest/src/utils.ts lines
76-93).  Rejects with "Invalid repo name" when `path.parse(name).dir` is
nonempty.  Then, when `parsed.base in this.repositoryCache` is false, it
checks directory existence, rejecting with "Repo does not exist" for a
missing directory and otherwise caching `git.Repository.open(directory)`;
finally it resolves with `this.repositoryCache[parsed.base]`.  Because the
membership test is JavaScript's `in` on an object literal, a base that is
an `Object.prototype` property passes it without an own entry, and the
final read then yields the inherited (non-repository) value. -/
def openRepo (fs : FileSys) (baseDir : String) (cache : List (String × Repo))
    (name : String) : Except String OpenVal × List (String × Repo) :=
  let dir := posixDir name
  if dir ≠ "" then (.error "Invalid repo name", cache)
  else
    let base := posixBase name
    if jsIn cache base then
      match findOwn cache base with
      | some r => (.ok (.repo r), cache)
      | none => (.ok (.inherited base), cache)
    else
      let directory := baseDir ++ "/" ++ base
      if fs.dirExists directory then
        (.ok (.repo (gitOpen directory)), setOwn cache base (gitOpen directory))
      else (.error "Repo does not exist", cache)

/-- A file system on which no directory exists. -/
def emptyFS : FileSys := ⟨fun _ => false⟩

/-- A file system on which every directory exists. -/
def fullFS : FileSys := ⟨fun _ => true⟩

end GitRest

namespace MergeTreeModel

/-- Modelled from the spec: the merge tree implementation (mergeTree.ts) is
not part of the available source, only its checked tests are.  For the
local client's view at the universal sequence number the tree flattens to
its segments in document order, each a text run that is either live or
tombstoned (spec section 3: removal marks segments removed rather than
deleting).  Block structure above the leaves does not affect the visible
text, so the view is modelled by the leaf sequence. -/
structure Seg where
  text : List Char
  removed : Bool
deriving DecidableEq

/-- Modelled from the spec: `getText(refSeq, clientId)` "reconstructs the
visible sequence content as of a view"; at the universal view the visible
content is the concatenation of the live segments' text, tombstones
contributing nothing. -/
def getText : List Seg → List Char
  | [] => []
  | ⟨_, true⟩ :: rest => getText rest
  | ⟨txt, false⟩ :: rest => txt ++ getText rest

/-- Translation of `editFlat` (core/messages.ts lines 1245-1247):
`source.substring(0, s) + nt + source.substring(s + dl, source.length)`;
JavaScript `substring` clamps out-of-range indices exactly as
`List.take`/`List.drop` do. -/
def editFlat (source : List Char) (s dl : Nat) (nt : List Char) : List Char :=
  source.take s ++ nt ++ source.drop (s + dl)

/-- Modelled from the spec: `insert(position, ...)` "locates the
segment/offset at `position` ..., splits if necessary, inserts a new
segment".  Tombstoned segments have zero visible length and are passed
over; a position interior to a live segment splits it; a position at or
past the end of a live segment continues into the remainder. -/
def insertText : List Seg → Nat → List Char → List Seg
  | [], _, nt => [⟨nt, false⟩]
  | ⟨txt, true⟩ :: rest, pos, nt => ⟨txt, true⟩ :: insertText rest pos nt
  | ⟨txt, false⟩ :: rest, pos, nt =>
    if pos < txt.length ∨ pos = 0 then
      ⟨txt.take pos, false⟩ :: ⟨nt, false⟩ :: ⟨txt.drop pos, false⟩ :: rest
    else ⟨txt, false⟩ :: insertText rest (pos - txt.length) nt

/-- Modelled from the spec: `markRangeRemoved` "marks overlapping segments
removed (tombstoned) rather than deleting immediately"; a partially
overlapped live segment is split so that exactly the overlapped part is
tombstoned. -/
def markRangeRemoved : List Seg → Nat → Nat → List Seg
  | [], _, _ => []
  | ⟨txt, true⟩ :: rest, start, stop => ⟨txt, true⟩ :: markRangeRemoved rest start stop
  | ⟨txt, false⟩ :: rest, start, stop =>
    ⟨txt.take (min start txt.length), false⟩ ::
      ⟨(txt.drop (min start txt.length)).take (min stop txt.length - min start txt.length),
        true⟩ ::
      ⟨txt.drop (min stop txt.length), false⟩ ::
      markRangeRemoved rest (start - txt.length) (stop - txt.length)

/-- Modelled from the spec: `removeRange` deletes the overlapped parts of the
live segments in the range (checked against `editFlat` by
`checkRemoveMergeTree`, core/messages.ts lines 1268-1282); earlier
tombstones are untouched. -/
def removeRange : List Seg → Nat → Nat → List Seg
  | [], _, _ => []
  | ⟨txt, true⟩ :: rest, start, stop => ⟨txt, true⟩ :: removeRange rest start stop
  | ⟨txt, false⟩ :: rest, start, stop =>
    ⟨txt.take (min start txt.length), false⟩ ::
      ⟨txt.drop (min stop txt.length), false⟩ ::
      removeRange rest (start - txt.length) (stop - txt.length)

/-- A small tree with a tombstone, used to exercise the flat-edit theorem. -/
def demoTree : List Seg :=
  [⟨"the ".toList, false⟩, ⟨"XX".toList, true⟩, ⟨"cat".toList, false⟩]

end MergeTreeModel

namespace RangeTree

/-- An integer range `[start, stop)`, the keys and queries of the
`IntegerRangeTree` exercised by `testRangeTree` (core/messages.ts lines
1862-1878). -/
structure IRange where
  start : Int
  stop : Int
deriving DecidableEq

/-- Modelled from the spec: the range index of collections.ts is not part of
the available source.  Per spec section 4.3 it is "an
order-statistics/augmented balanced tree keyed by start, each node storing
the maximum end in its subtree"; `me` is that augmentation.  Balancing
only affects performance, not the query results, so rotations are not
modelled. -/
inductive RTree where
  | nil
  | node (l : RTree) (iv : IRange) (me : Int) (r : RTree)
deriving DecidableEq

/-- Insertion keyed by `start` (ties to the right), updating the subtree
maximum of every node passed. -/
def put : RTree → IRange → RTree
  | .nil, x => .node .nil x x.stop .nil
  | .node l iv me r, x =>
    if x.start < iv.start then .node (put l x) iv (max me x.stop) r
    else .node l iv (max me x.stop) (put r x)

/-- The stored ranges in key order. -/
def inorder : RTree → List IRange
  | .nil => []
  | .node l iv _ r => inorder l ++ iv :: inorder r

/-- The span-intersection test of the spec: `i.start < q.end && q.start <
i.end`. -/
def overlaps (a q : IRange) : Bool :=
  decide (a.start < q.stop) && decide (q.start < a.stop)

/-- Modelled from the spec: `match(q)` descends pruning "subtrees that
cannot overlap": a subtree whose maximum end is at most `q.start` holds no
overlapping range, and when the node key is already at or past `q.end` no
right descendant (all keyed no lower) can overlap. -/
def matchT : RTree → IRange → List IRange
  | .nil, _ => []
  | .node l iv me r, q =>
    if me ≤ q.start then []
    else
      matchT l q ++
        (if overlaps iv q then [iv] else []) ++
        (if iv.start < q.stop then matchT r q else [])

/-- A range tree holding the given ranges, inserted left to right as
`testRangeTree` does. -/
def build (rs : List IRange) : RTree := rs.foldl put .nil

/-- The structural invariant maintained by `put`: keys ordered across each
node, and every node's `me` bounding all ends in its subtree. -/
inductive Inv : RTree → Prop
  | nil : Inv .nil
  | node {l : RTree} {iv : IRange} {me : Int} {r : RTree} :
      Inv l → Inv r →
      (∀ a ∈ inorder l, a.start < iv.start) →
      (∀ a ∈ inorder r, iv.start ≤ a.start) →
      (∀ a ∈ inorder (RTree.node l iv me r), a.stop ≤ me) →
      Inv (.node l iv me r)

/-- Translation of `docRanges` (core/messages.ts lines 1827-1847), the
ranges the source's range-tree test stores. -/
def docRanges : List IRange :=
  [⟨0, 20⟩, ⟨8, 12⟩, ⟨8, 14⟩, ⟨20, 24⟩, ⟨11, 15⟩, ⟨16, 33⟩, ⟨19, 24⟩,
   ⟨22, 80⟩, ⟨25, 29⟩, ⟨30, 32⟩, ⟨41, 49⟩, ⟨41, 49⟩, ⟨41, 49⟩, ⟨51, 69⟩,
   ⟨55, 58⟩, ⟨60, 71⟩, ⟨81, 99⟩, ⟨85, 105⟩, ⟨9, 34⟩]

end RangeTree

namespace Ordinals

/-- Modelled from the spec: ordinal maintenance lives in mergeTree.ts, which
is not part of the available source (finishRound only checks its effect).
A segment here is its identity, its ordinal — "an opaque, comparable ...
key" modelled as a rational, a dense order in which a key strictly between
any two others always exists — and its tombstone flag.  Segments are kept
in document order, tombstones included, since ordinals order "all segments
ever inserted". -/
structure OSeg where
  ident : Nat
  ord : ℚ
  removed : Bool
deriving DecidableEq

/-- Modelled from the spec: "insertion derives a fresh ordinal strictly
between neighbors" — the midpoint between the two physical neighbors, or
one past the single neighbor at either edge, or zero in an empty tree. -/
def betweenOrd (u v : List OSeg) : ℚ :=
  match u.getLast?, v.head? with
  | none, none => 0
  | some a, none => a.ord + 1
  | none, some b => b.ord - 1
  | some a, some b => (a.ord + b.ord) / 2

/-- A single mutation of the segment sequence: inserting a fresh segment
between two neighbors with a `betweenOrd` ordinal, or tombstoning a
segment in place (removal never unlinks here; collection is a separate
concern and only deletes, never reorders). -/
inductive OStep : List OSeg → List OSeg → Prop
  | ins (u v : List OSeg) (ident : Nat) :
      OStep (u ++ v) (u ++ ⟨ident, betweenOrd u v, false⟩ :: v)
  | rem (u : List OSeg) (x : OSeg) (v : List OSeg) :
      OStep (u ++ x :: v) (u ++ { x with removed := true } :: v)

/-- States reachable from the empty tree by inserts and removes. -/
inductive OReach : List OSeg → Prop
  | init : OReach []
  | step {s s' : List OSeg} : OReach s → OStep s s' → OReach s'

/-- Strict ordinal comparison between segments. -/
def OrdLt (a b : OSeg) : Prop := a.ord < b.ord

/-- First segment of the ordinal witness run. -/
def seg0 : OSeg := ⟨0, 0, false⟩

/-- Second segment of the ordinal witness run, appended after `seg0`. -/
def seg1 : OSeg := ⟨1, 1, false⟩

/-- Third segment of the ordinal witness run, inserted between the other
two. -/
def seg2 : OSeg := ⟨2, betweenOrd [seg0] [seg1], false⟩

/-- The ordinal witness state: three segments, the last inserted between
the first two. -/
def wstate : List OSeg := [seg0, seg2, seg1]

end Ordinals

namespace StackCtx

/-- An item of the flattened document sequence as `addToMergeTree`
(core/messages.ts lines 1517-1562) lays it out: a text run, a `pg` tile
marker, a nest-begin marker carrying its range label ("row" or "box") and
marker id, or the matching nest-end marker (whose id is "end-" ++ id).
Markers occupy one position, text its length. -/
inductive Item where
  | txt (s : List Char)
  | tile
  | nb (lab : String) (id : String)
  | ne (lab : String) (id : String)
deriving DecidableEq


mutual
/-- Modelled from the spec: documents from the tree grammar of
`DocumentTree` (Row -> row[Box*]; Box -> box[Content]; Content ->
(Row|Paragraph)*; Paragraph -> pgtile text), with each row/box node
carrying its marker id.  The forest type makes the nested lists a mutual
inductive so structural recursion stays primitive. -/
inductive DocNode where
  | txt (s : List Char)
  | pg (s : List Char)
  | row (id : String) (ch : DocForest)
  | box (id : String) (ch : DocForest)
inductive DocForest where
  | nil
  | cons (n : DocNode) (f : DocForest)
end

mutual
/-- Flattening a document into the merge tree's leaf sequence, exactly as
`addToMergeTree` inserts it: a text node is its text; a `pg` is a tile
marker followed by its text; a row/box is a nest-begin marker with its
label and id, the flattened children, then the nest-end marker with id
"end-" ++ id.  (Row markers additionally carry a `pg` tile label in the
source; tile labels play no role in range-stack queries.) -/
def flatN : DocNode → List Item
  | .txt s => [.txt s]
  | .pg s => [.tile, .txt s]
  | .row id ch => .nb "row" id :: (flatF ch ++ [.ne "row" ("end-" ++ id)])
  | .box id ch => .nb "box" id :: (flatF ch ++ [.ne "box" ("end-" ++ id)])
def flatF : DocForest → List Item
  | .nil => []
  | .cons n f => flatN n ++ flatF f
end

mutual
/-- Document length in positions: markers count 1, text its length. -/
def lenN : DocNode → Nat
  | .txt s => s.length
  | .pg s => 1 + s.length
  | .row _ ch => 2 + lenF ch
  | .box _ ch => 2 + lenF ch
def lenF : DocForest → Nat
  | .nil => 0
  | .cons n f => lenN n + lenF f
end

/-- Modelled from the spec: the single linear pass of `getStackContext` —
"pushing on an open marker, popping on its matching close marker" —
restricted to one marker category `lab`.  The scan consumes the items
strictly before position `p` (each marker advancing one position, text its
length), pushing the id of every `lab`-labelled nest-begin marker and
popping on every `lab`-labelled nest-end marker; `st` is the accumulator,
innermost id at its head. -/
def scanGo (lab : String) : List Item → Nat → List String → List String
  | [], _, st => st
  | _ :: _, 0, st => st
  | .txt s :: rest, p + 1, st => scanGo lab rest (p + 1 - s.length) st
  | .tile :: rest, p + 1, st => scanGo lab rest p st
  | .nb l i :: rest, p + 1, st => scanGo lab rest p (if l = lab then i :: st else st)
  | .ne l _ :: rest, p + 1, st => scanGo lab rest p (if l = lab then st.tail else st)

/-- The stack of enclosing open-marker ids of category `lab` at position
`p`, outer to inner, computed by the single pass. -/
def getStackContext (items : List Item) (p : Nat) (lab : String) : List String :=
  (scanGo lab items p []).reverse

mutual
/-- The reference computation: a full recursive walk of the document tree,
returning for position `p` the chain of enclosing row/box marker ids of
category `lab`, outermost first.  A node encloses the positions after its
begin marker up to and including its end marker. -/
def ctxN (lab : String) : DocNode → Nat → List String
  | .txt _, _ => []
  | .pg _, _ => []
  | .row id ch, p =>
    match p with
    | 0 => []
    | q + 1 => (if "row" = lab then [id] else []) ++ ctxF lab ch q
  | .box id ch, p =>
    match p with
    | 0 => []
    | q + 1 => (if "box" = lab then [id] else []) ++ ctxF lab ch q
def ctxF (lab : String) : DocForest → Nat → List String
  | .nil, _ => []
  | .cons n f, p => if p < lenN n then ctxN lab n p else ctxF lab f (p - lenN n)
end

/-- The structural document of Scenario C: a row holding a box holding a
paragraph, as built by `addToMergeTree` for `row > box > pg` (flat layout:
row begin marker, box begin marker, pg tile, the text, box end marker, row
end marker). -/
def demoDoc : DocForest :=
  .cons (.row "row0" (.cons (.box "box0" (.cons (.pg "word".toList) .nil)) .nil)) .nil

end StackCtx

namespace Protocol

/-- Modelled from the spec: a client-issued sequence edit — an insert of a
string at a position or a removal of a range (spec sections 4.1 and 4.4);
annotate operations do not affect `getText` and are omitted. -/
inductive Op where
  | ins (pos : Nat) (s : List Char)
  | del (start stop : Nat)
deriving DecidableEq

/-- Modelled from the spec: the deterministic application of a sequenced
operation to a replica's text.  The spec's deterministic tie-break makes
the effect of a sequenced operation a function of the tree state and the
operation alone, identical on every replica (spec sections 4.1, 5); here
positions are clamped into range, which is one such deterministic rule.
All replicas run this same function. -/
def applyOp (t : List Char) : Op → List Char
  | .ins pos s => t.take (min pos t.length) ++ s ++ t.drop (min pos t.length)
  | .del a b => t.take a ++ t.drop (max a b)

/-- A raw (unsequenced) operation en route to the ordering authority,
carrying the issuing client's id and the `refSeq` it had observed. -/
structure RawMsg where
  cid : Nat
  refSeq : Nat
  op : Op
deriving DecidableEq

/-- A sequenced operation as rebroadcast by the authority, carrying its
assigned final sequence number. -/
structure SeqMsg where
  seqNum : Nat
  cid : Nat
  refSeq : Nat
  op : Op
deriving DecidableEq

/-- A client replica: its confirmed text (the result of the sequenced
operations applied so far), how many sequenced operations it has applied
(`currentSeq`), its provisional local operations not yet reconciled
(applied optimistically over the confirmed text, see `visText`), and its
inbound queue of sequenced messages. -/
structure CState where
  text : List Char
  applied : Nat
  pending : List Op
  inQ : List SeqMsg
deriving DecidableEq

/-- The whole system: the server's text and sequencing log, the server's
inbound queue of raw operations, and the clients. -/
structure WState where
  stext : List Char
  slog : List SeqMsg
  sQ : List RawMsg
  clients : List CState
deriving DecidableEq

/-- A client that has seen only the initial text. -/
def initC (t0 : List Char) : CState := ⟨t0, 0, [], []⟩

/-- The initial system: `n` clients and the server all holding `t0`, all
queues empty. -/
def initW (n : Nat) (t0 : List Char) : WState :=
  ⟨t0, [], [], List.replicate n (initC t0)⟩

/-- Modelled from the spec: client `c` issues a local edit — applied
optimistically (appended to its pending overlay) and packaged as a raw
operation carrying its current sequence number toward the authority
(spec section 4.4). -/
def issueW (w : WState) (c : Nat) (op : Op) : WState :=
  match w.clients[c]? with
  | none => w
  | some cl =>
    { w with
      sQ := w.sQ ++ [⟨c, cl.applied, op⟩],
      clients := w.clients.set c { cl with pending := cl.pending ++ [op] } }

/-- Modelled from the spec: the authority takes the next raw operation,
assigns the next global sequence number, applies it to its own tree and
rebroadcasts the sequenced message to every client, the originator
included (spec section 4.5).  Draining `k` messages is `k` of these
steps. -/
def seqW (w : WState) : WState :=
  match w.sQ with
  | [] => w
  | r :: rest =>
    let m : SeqMsg := ⟨w.slog.length + 1, r.cid, r.refSeq, r.op⟩
    { stext := applyOp w.stext r.op,
      slog := w.slog ++ [m],
      sQ := rest,
      clients := w.clients.map fun cl => { cl with inQ := cl.inQ ++ [m] } }

/-- The client state after applying one inbound sequenced message: the
operation is applied to the confirmed text with the same deterministic
`applyOp` as everywhere else; if the message is the echo of the client's
own oldest provisional operation (the authority sequences each client's
operations in issue order), the provisional state is reconciled — the
pending entry is retired in place. -/
def deliveredClient (c : Nat) (cl : CState) (m : SeqMsg) (rest : List SeqMsg) : CState :=
  { text := applyOp cl.text m.op,
    applied := cl.applied + 1,
    pending := if m.cid == c then cl.pending.tail else cl.pending,
    inQ := rest }

/-- Modelled from the spec: client `c` drains one inbound sequenced
message (`applyMessages(count)` is `count` of these steps, so any drain
granularity is expressible; spec section 4.4). -/
def deliverW (w : WState) (c : Nat) : WState :=
  match w.clients[c]? with
  | none => w
  | some cl =>
    match cl.inQ with
    | [] => w
    | m :: rest => { w with clients := w.clients.set c (deliveredClient c cl m rest) }

/-- One protocol event: some client issues an edit, the authority sequences
one raw operation, or some client applies one inbound message.  Events
interleave arbitrarily across actors. -/
inductive PStep : WState → WState → Prop
  | issue (w : WState) (c : Nat) (op : Op) : PStep w (issueW w c op)
  | sequenceOne (w : WState) : PStep w (seqW w)
  | deliverOne (w : WState) (c : Nat) : PStep w (deliverW w c)

/-- The runs of the protocol: every state reachable from the initial one by
arbitrary interleavings of issue, sequence and deliver events. -/
inductive PReach (n : Nat) (t0 : List Char) : WState → Prop
  | init : PReach n t0 (initW n t0)
  | step {w w' : WState} : PReach n t0 w → PStep w w' → PReach n t0 w'

/-- The text a client displays: its provisional operations replayed over
its confirmed text (`getText` on the replica). -/
def visText (cl : CState) : List Char := cl.pending.foldl applyOp cl.text

/-- The text obtained by replaying a sequenced log in order from the
initial text. -/
def histText (t0 : List Char) (l : List SeqMsg) : List Char :=
  l.foldl (fun t m => applyOp t m.op) t0

/-- Per-client protocol invariant: the client has applied a prefix of the
global log, its confirmed text is the replay of that prefix, its inbound
queue is exactly the rest of the log, and its pending overlay is exactly
its own operations still in flight (its echoes still queued inbound,
then its raws still at the server), in issue order. -/
def clientInv (t0 : List Char) (slog : List SeqMsg) (sQ : List RawMsg)
    (c : Nat) (cl : CState) : Prop :=
  cl.applied ≤ slog.length ∧
  cl.text = histText t0 (slog.take cl.applied) ∧
  cl.inQ = slog.drop cl.applied ∧
  cl.pending = (cl.inQ.filter (fun m => m.cid == c)).map SeqMsg.op ++
               (sQ.filter (fun r => r.cid == c)).map RawMsg.op

/-- Global invariant: the server's text is the replay of the log, and every
client satisfies `clientInv`. -/
def Inv (t0 : List Char) (w : WState) : Prop :=
  w.stext = histText t0 w.slog ∧
  ∀ c (hc : c < w.clients.length), clientInv t0 w.slog w.sQ c w.clients[c]

/-- Initial text of the convergence witness run. -/
def t0demo : List Char := "ab".toList

/-- The convergence witness run: two clients concurrently issue an insert
and a remove against the same initial text, the server sequences both, and
both clients drain both broadcasts — all queues end empty. -/
def wdemo : WState :=
  deliverW (deliverW (deliverW (deliverW (seqW (seqW
    (issueW (issueW (initW 2 t0demo) 0 (Op.ins 0 "x".toList)) 1 (Op.del 0 1)))) 0) 0) 1) 1

end Protocol

instance {ε α : Type} [DecidableEq ε] [DecidableEq α] : DecidableEq (Except ε α) := fun x y =>
  match x, y with
  | .ok a, .ok b =>
    if h : a = b then .isTrue (by rw [h]) else .isFalse (fun hc => h (by injection hc))
  | .ok _, .error _ => .isFalse (fun hc => Except.noConfusion hc)
  | .error _, .ok _ => .isFalse (fun hc => Except.noConfusion hc)
  | .error e, .error f =>
    if h : e = f then .isTrue (by rw [h]) else .isFalse (fun hc => h (by injection hc))

namespace Logger

/-- C9: `isTaggedTelemetryPropertyValue` is a total function (optional
chaining means it never throws) returning true exactly when the `typeof`
of `x?.value` is not "object" and the `typeof` of `x?.tag` is "string";
in particular it returns false on `null` and `undefined` receivers and on
a null `value` field, and returns true when `tag` is a string and `value`
is a function, although a function is not a `TelemetryEventPropertyType`. -/
theorem isTaggedTelemetryPropertyValue_characterization (x : JSVal) :
    (isTaggedTelemetryPropertyValue x = true ↔
      (jsTypeof (optMember x "value") ≠ "object" ∧
       jsTypeof (optMember x "tag") = "string")) ∧
    isTaggedTelemetryPropertyValue JSVal.vnull = false ∧
    isTaggedTelemetryPropertyValue JSVal.vundefined = false ∧
    isTaggedTelemetryPropertyValue
      (JSVal.vobj [("value", JSVal.vnull), ("tag", JSVal.vstr "UserData")]) = false ∧
    isTaggedTelemetryPropertyValue
      (JSVal.vobj [("tag", JSVal.vstr "UserData"), ("value", JSVal.vfun)]) = true ∧
    isTelemetryEventPropertyType JSVal.vfun = false := by
  refine ⟨?_, by decide, by decide, by decide, by decide, by decide⟩
  simp [isTaggedTelemetryPropertyValue, Bool.and_eq_true, decide_eq_true_eq]

end Logger

namespace Messages

/-- C8: the raw and sequenced wire forms are distinct: their type tags are
different strings, a raw operation message carries documentId, clientId,
user, timestamp and the submitted operation, and the sequenced form is a
separate shape carrying the sequenced operation with its final sequence
number. -/
theorem raw_and_sequenced_shapes_distinct :
    RawOperationType ≠ SequencedOperationType ∧
    (∀ (u : IAuthenticatedUser) (d c : String) (t : Int) (o : IDocumentMessage),
      (IRawOperationMessage.mk RawOperationType u d c t o).type = RawOperationType ∧
      (IRawOperationMessage.mk RawOperationType u d c t o).user = u ∧
      (IRawOperationMessage.mk RawOperationType u d c t o).documentId = d ∧
      (IRawOperationMessage.mk RawOperationType u d c t o).clientId = c ∧
      (IRawOperationMessage.mk RawOperationType u d c t o).timestamp = t ∧
      (IRawOperationMessage.mk RawOperationType u d c t o).operation = o) ∧
    (∀ (d : String) (so : ISequencedDocumentMessage),
      (ISequencedOperationMessage.mk SequencedOperationType d so).type ≠ RawOperationType ∧
      (ISequencedOperationMessage.mk SequencedOperationType d so).operation.sequenceNumber =
        so.sequenceNumber) := by
  refine ⟨by decide, fun u d c t o => ⟨rfl, rfl, rfl, rfl, rfl, rfl⟩,
    fun d so => ⟨?_, rfl⟩⟩
  show SequencedOperationType ≠ RawOperationType
  decide

end Messages

namespace GitRest

/-- Writing a key and reading it back yields the written repository. -/
theorem findOwn_setOwn_self (cache : List (String × Repo)) (k : String) (r : Repo) :
    findOwn (setOwn cache k r) k = some r := by
  induction cache with
  | nil => simp [setOwn, findOwn]
  | cons hd tl ih =>
    obtain ⟨k', r'⟩ := hd
    by_cases h : k' = k
    · subst h; simp [setOwn, findOwn]
    · simp [setOwn, findOwn, h, ih]

/-- C6 (amended): `open` rejects exactly when the name has a directory
component ("Invalid repo name"), or when its base has no cache entry, is
not a property inherited from `Object.prototype`, and its directory does
not exist ("Repo does not exist"); `create` rejects exactly when the name
has a directory component; and the cache changes only on the successful
paths that store a repository, so every failure leaves it unchanged. -/
theorem open_create_failure_modes (fs : FileSys) (baseDir : String)
    (cache : List (String × Repo)) (name : String) :
    ((isErr (openRepo fs baseDir cache name).1 = true) ↔
      (posixDir name ≠ "" ∨
        (jsIn cache (posixBase name) = false ∧
         fs.dirExists (baseDir ++ "/" ++ posixBase name) = false))) ∧
    (((openRepo fs baseDir cache name).1 = Except.error "Invalid repo name") ↔
      posixDir name ≠ "") ∧
    (((openRepo fs baseDir cache name).1 = Except.error "Repo does not exist") ↔
      (posixDir name = "" ∧ jsIn cache (posixBase name) = false ∧
       fs.dirExists (baseDir ++ "/" ++ posixBase name) = false)) ∧
    ((openRepo fs baseDir cache name).2 =
      if posixDir name = "" ∧ jsIn cache (posixBase name) = false ∧
         fs.dirExists (baseDir ++ "/" ++ posixBase name) = true
      then setOwn cache (posixBase name) (gitOpen (baseDir ++ "/" ++ posixBase name))
      else cache) ∧
    ((isErr (create baseDir cache name).1 = true) ↔ posixDir name ≠ "") ∧
    (((create baseDir cache name).1 = Except.error "Invalid repo name") ↔
      posixDir name ≠ "") ∧
    ((create baseDir cache name).2 =
      if posixDir name = ""
      then setOwn cache (posixBase name) (gitInit (baseDir ++ "/" ++ posixBase name))
      else cache) := by
  by_cases hd : posixDir name = ""
  · by_cases hin : jsIn cache (posixBase name) = true
    · cases hfo : findOwn cache (posixBase name) <;>
        simp [openRepo, create, isErr, hd, hin, hfo]
    · rw [Bool.not_eq_true] at hin
      by_cases hex : fs.dirExists (baseDir ++ "/" ++ posixBase name) = true
      · simp [openRepo, create, isErr, hd, hin, hex]
      · rw [Bool.not_eq_true] at hex
        simp [openRepo, create, isErr, hd, hin, hex]
  · simp [openRepo, create, isErr, hd]

/-- C6 counterexample to the original claim: for the name "toString" (no
directory component, no cache entry, directory absent) `open` does not
reject with "Repo does not exist": the JavaScript `in` membership test
passes through `Object.prototype`, and the call resolves with the
inherited property. -/
theorem open_toString_resolves_despite_missing_dir :
    posixDir "toString" = "" ∧
    findOwn [] "toString" = none ∧
    emptyFS.dirExists ("/data" ++ "/" ++ posixBase "toString") = false ∧
    isErr (openRepo emptyFS "/data" [] "toString").1 = false ∧
    (openRepo emptyFS "/data" [] "toString").1 =
      Except.ok (OpenVal.inherited "toString") := by decide

/-- C7: `create("foo")` caches a repository handle but its promise resolves
with `undefined` (the source body has no return statement), contradicting
both its declared type `Promise<git.Repository>` and the specified
contract; `open` on an existing repository does resolve with a handle. -/
theorem create_resolves_undefined :
    (create "/data" [] "foo").1 = Except.ok none ∧
    findOwn (create "/data" [] "foo").2 "foo" = some (gitInit "/data/foo") ∧
    (openRepo fullFS "/data" [] "foo").1 =
      Except.ok (OpenVal.repo (gitOpen "/data/foo")) := by decide

/-- C10: once `create(name)` or a successful `open(name)` has run, every
later `open(name)` resolves with the same cached value, independent of
the file system (no existence re-check, so it cannot fail with "Repo does
not exist" even after the directory disappears), and leaves the cache
unchanged. -/
theorem cached_open_no_recheck (baseDir : String) (cache : List (String × Repo))
    (name : String) (fs fs' : FileSys) (v : OpenVal) (c2 : List (String × Repo))
    (hdir : posixDir name = "")
    (hsucc : openRepo fs baseDir cache name = (Except.ok v, c2)) :
    (∀ fs0 : FileSys,
      openRepo fs0 baseDir (create baseDir cache name).2 name =
        (Except.ok (OpenVal.repo (gitInit (baseDir ++ "/" ++ posixBase name))),
         (create baseDir cache name).2)) ∧
    openRepo fs' baseDir c2 name = (Except.ok v, c2) := by
  constructor
  · intro fs0
    have hc : (create baseDir cache name).2 =
        setOwn cache (posixBase name) (gitInit (baseDir ++ "/" ++ posixBase name)) := by
      simp [create, hdir]
    rw [hc]
    simp [openRepo, hdir, jsIn, findOwn_setOwn_self]
  · by_cases hin : jsIn cache (posixBase name) = true
    · cases hfo : findOwn cache (posixBase name) with
      | none =>
        simp [openRepo, hdir, hin, hfo] at hsucc
        obtain ⟨hv, hc2⟩ := hsucc
        subst hv; subst hc2
        simp [openRepo, hdir, hin, hfo]
      | some r =>
        simp [openRepo, hdir, hin, hfo] at hsucc
        obtain ⟨hv, hc2⟩ := hsucc
        subst hv; subst hc2
        simp [openRepo, hdir, hin, hfo]
    · rw [Bool.not_eq_true] at hin
      by_cases hex : fs.dirExists (baseDir ++ "/" ++ posixBase name) = true
      · simp [openRepo, hdir, hin, hex] at hsucc
        obtain ⟨hv, hc2⟩ := hsucc
        subst hv; subst hc2
        simp [openRepo, hdir, jsIn, findOwn_setOwn_self]
      · rw [Bool.not_eq_true] at hex
        simp [openRepo, hdir, hin, hex] at hsucc

/-- C10 witness: with base directory "/d", empty cache and name "a", an
`open` on a file system where the directory exists succeeds; afterwards
`open` succeeds on a file system where nothing exists, returning the
cached handle and leaving the cache unchanged, and likewise after
`create`. -/
theorem cached_open_no_recheck_witness :
    posixDir "a" = "" ∧
    openRepo fullFS "/d" [] "a" =
      (Except.ok (OpenVal.repo (gitOpen "/d/a")), [("a", gitOpen "/d/a")]) ∧
    openRepo emptyFS "/d" (create "/d" [] "a").2 "a" =
      (Except.ok (OpenVal.repo (gitInit ("/d" ++ "/" ++ posixBase "a"))),
       (create "/d" [] "a").2) ∧
    openRepo emptyFS "/d" [("a", gitOpen "/d/a")] "a" =
      (Except.ok (OpenVal.repo (gitOpen "/d/a")), [("a", gitOpen "/d/a")]) := by
  refine ⟨by decide, by decide, ?_, ?_⟩
  · exact (cached_open_no_recheck "/d" [] "a" fullFS emptyFS
      (OpenVal.repo (gitOpen "/d/a")) [("a", gitOpen "/d/a")] (by decide) (by decide)).1 emptyFS
  · exact (cached_open_no_recheck "/d" [] "a" fullFS emptyFS
      (OpenVal.repo (gitOpen "/d/a")) [("a", gitOpen "/d/a")] (by decide) (by decide)).2

end GitRest

namespace MergeTreeModel

/-- Inserting at a visible position `pos` splices the new text into the
visible text at `pos`. -/
theorem getText_insertText (t : List Seg) (pos : Nat) (nt : List Char)
    (h : pos ≤ (getText t).length) :
    getText (insertText t pos nt) =
      (getText t).take pos ++ nt ++ (getText t).drop pos := by
  induction t generalizing pos with
  | nil =>
    simp [getText] at h
    subst h
    simp [getText, insertText]
  | cons seg rest ih =>
    obtain ⟨txt, rem⟩ := seg
    cases rem
    case true =>
      simp only [getText] at h ⊢
      exact ih pos h
    case false =>
      simp only [getText, List.length_append] at h
      by_cases hc : pos < txt.length ∨ pos = 0
      · have hle : pos ≤ txt.length := by rcases hc with h' | h' <;> omega
        simp only [insertText, if_pos hc, getText]
        simp [List.take_append_eq_append_take, List.drop_append_eq_append_drop,
          Nat.sub_eq_zero_of_le hle, List.append_assoc]
      · rw [not_or] at hc
        obtain ⟨hlt, hne⟩ := hc
        have hge : txt.length ≤ pos := Nat.le_of_not_lt hlt
        simp only [insertText, if_neg (not_or.mpr ⟨hlt, hne⟩), getText]
        rw [ih (pos - txt.length) (by omega)]
        simp [List.take_append_eq_append_take, List.drop_append_eq_append_drop,
          List.take_of_length_le hge, List.drop_eq_nil_of_le hge,
          List.append_assoc]

/-- Tombstoning the visible range `[start, stop)` deletes it from the
visible text. -/
theorem getText_markRangeRemoved (t : List Seg) (start stop : Nat)
    (h1 : start ≤ stop) (h2 : stop ≤ (getText t).length) :
    getText (markRangeRemoved t start stop) =
      (getText t).take start ++ (getText t).drop stop := by
  induction t generalizing start stop with
  | nil => simp [getText, markRangeRemoved]
  | cons seg rest ih =>
    obtain ⟨txt, rem⟩ := seg
    cases rem
    case true =>
      simp only [getText] at h2 ⊢
      exact ih start stop h1 h2
    case false =>
      simp only [getText, List.length_append] at h2
      simp only [markRangeRemoved, getText]
      rw [ih (start - txt.length) (stop - txt.length) (by omega) (by omega)]
      rcases le_or_lt stop txt.length with hs | hs
      · have hstart : start ≤ txt.length := le_trans h1 hs
        simp [Nat.min_eq_left hstart, Nat.min_eq_left hs,
          Nat.sub_eq_zero_of_le hstart, Nat.sub_eq_zero_of_le hs,
          List.take_append_eq_append_take, List.drop_append_eq_append_drop,
          List.append_assoc]
      · rcases le_or_lt start txt.length with hst | hst
        · simp [Nat.min_eq_left hst, Nat.min_eq_right (le_of_lt hs),
            Nat.sub_eq_zero_of_le hst,
            List.take_append_eq_append_take, List.drop_append_eq_append_drop,
            List.drop_eq_nil_of_le (le_of_lt hs),
            List.append_assoc]
        · simp [Nat.min_eq_right (le_of_lt hst), Nat.min_eq_right (le_of_lt hs),
            List.take_append_eq_append_take, List.drop_append_eq_append_drop,
            List.take_of_length_le (le_of_lt hst),
            List.drop_eq_nil_of_le (le_of_lt hs),
            List.append_assoc]

/-- Removing the visible range `[start, stop)` deletes it from the visible
text. -/
theorem getText_removeRange (t : List Seg) (start stop : Nat)
    (h1 : start ≤ stop) (h2 : stop ≤ (getText t).length) :
    getText (removeRange t start stop) =
      (getText t).take start ++ (getText t).drop stop := by
  induction t generalizing start stop with
  | nil => simp [getText, removeRange]
  | cons seg rest ih =>
    obtain ⟨txt, rem⟩ := seg
    cases rem
    case true =>
      simp only [getText] at h2 ⊢
      exact ih start stop h1 h2
    case false =>
      simp only [getText, List.length_append] at h2
      simp only [removeRange, getText]
      rw [ih (start - txt.length) (stop - txt.length) (by omega) (by omega)]
      rcases le_or_lt stop txt.length with hs | hs
      · have hstart : start ≤ txt.length := le_trans h1 hs
        simp [Nat.min_eq_left hstart, Nat.min_eq_left hs,
          Nat.sub_eq_zero_of_le hstart, Nat.sub_eq_zero_of_le hs,
          List.take_append_eq_append_take, List.drop_append_eq_append_drop,
          List.append_assoc]
      · rcases le_or_lt start txt.length with hst | hst
        · simp [Nat.min_eq_left hst, Nat.min_eq_right (le_of_lt hs),
            Nat.sub_eq_zero_of_le hst,
            List.take_append_eq_append_take, List.drop_append_eq_append_drop,
            List.drop_eq_nil_of_le (le_of_lt hs),
            List.append_assoc]
        · simp [Nat.min_eq_right (le_of_lt hst), Nat.min_eq_right (le_of_lt hs),
            List.take_append_eq_append_take, List.drop_append_eq_append_drop,
            List.take_of_length_le (le_of_lt hst),
            List.drop_eq_nil_of_le (le_of_lt hs),
            List.append_assoc]

/-- C2: for a merge tree viewed at the universal sequence number with visible
text T of length L, after `insertText(pos, s)` with `pos ≤ L` the visible
text equals T with s spliced in at pos, and after `removeRange(start,
stop)` or `markRangeRemoved(start, stop)` with `start ≤ stop ≤ L` the
visible text equals T with `[start, stop)` deleted — each agreeing with
the flat-string `editFlat` oracle used by `checkInsertMergeTree`,
`checkRemoveMergeTree` and `checkMarkRemoveMergeTree`. -/
theorem flat_edit_correct (t : List Seg) (pos start stop : Nat) (nt : List Char)
    (hpos : pos ≤ (getText t).length)
    (h1 : start ≤ stop) (h2 : stop ≤ (getText t).length) :
    getText (insertText t pos nt) = editFlat (getText t) pos 0 nt ∧
    getText (removeRange t start stop) = editFlat (getText t) start (stop - start) [] ∧
    getText (markRangeRemoved t start stop) = editFlat (getText t) start (stop - start) [] := by
  have hss : start + (stop - start) = stop := by omega
  refine ⟨?_, ?_, ?_⟩
  · rw [getText_insertText t pos nt hpos]; simp [editFlat]
  · rw [getText_removeRange t start stop h1 h2]; simp [editFlat, hss]
  · rw [getText_markRangeRemoved t start stop h1 h2]; simp [editFlat, hss]

/-- C2 witness: on a tree containing a tombstone, with visible text
"the cat", inserting "big " at 5 and deleting `[1, 6)` each match the flat
edit. -/
theorem flat_edit_correct_witness :
    (5 ≤ (getText demoTree).length ∧ 1 ≤ 6 ∧ 6 ≤ (getText demoTree).length) ∧
    (getText (insertText demoTree 5 "big ".toList) =
        editFlat (getText demoTree) 5 0 "big ".toList ∧
      getText (removeRange demoTree 1 6) = editFlat (getText demoTree) 1 (6 - 1) [] ∧
      getText (markRangeRemoved demoTree 1 6) = editFlat (getText demoTree) 1 (6 - 1) []) :=
  ⟨⟨by decide, by decide, by decide⟩,
    flat_edit_correct demoTree 5 1 6 "big ".toList (by decide) (by decide) (by decide)⟩

end MergeTreeModel

namespace RangeTree

/-- Membership after insertion: the new range, or an old one. -/
theorem mem_inorder_put (t : RTree) (x a : IRange) :
    a ∈ inorder (put t x) ↔ a = x ∨ a ∈ inorder t := by
  induction t with
  | nil => simp [put, inorder]
  | node l iv me r ihl ihr =>
    by_cases h : x.start < iv.start
    · simp only [put, if_pos h, inorder, List.mem_append, List.mem_cons, ihl]
      tauto
    · simp only [put, if_neg h, inorder, List.mem_append, List.mem_cons, ihr]
      tauto

/-- `put` preserves the structural invariant. -/
theorem inv_put (t : RTree) (x : IRange) (ht : Inv t) : Inv (put t x) := by
  induction ht with
  | nil =>
    refine Inv.node Inv.nil Inv.nil ?_ ?_ ?_ <;> simp [inorder, put]
  | @node l iv me r hl hr hlt hge hme ihl ihr =>
    by_cases h : x.start < iv.start
    · simp only [put, if_pos h]
      refine Inv.node ihl hr ?_ hge ?_
      · intro a ha
        rcases (mem_inorder_put l x a).mp ha with rfl | ha'
        · exact h
        · exact hlt a ha'
      · intro a ha
        simp only [inorder, List.mem_append, List.mem_cons] at ha
        rcases ha with ha | rfl | ha
        · rcases (mem_inorder_put l x a).mp ha with rfl | ha'
          · exact le_max_of_le_right le_rfl
          · exact le_max_of_le_left (hme a (by simp [inorder, ha']))
        · exact le_max_of_le_left (hme a (by simp [inorder]))
        · exact le_max_of_le_left (hme a (by simp [inorder, ha]))
    · simp only [put, if_neg h]
      refine Inv.node hl ihr hlt ?_ ?_
      · intro a ha
        rcases (mem_inorder_put r x a).mp ha with rfl | ha'
        · exact le_of_not_lt h
        · exact hge a ha'
      · intro a ha
        simp only [inorder, List.mem_append, List.mem_cons] at ha
        rcases ha with ha | rfl | ha
        · exact le_max_of_le_left (hme a (by simp [inorder, ha]))
        · exact le_max_of_le_left (hme a (by simp [inorder]))
        · rcases (mem_inorder_put r x a).mp ha with rfl | ha'
          · exact le_max_of_le_right le_rfl
          · exact le_max_of_le_left (hme a (by simp [inorder, ha']))

/-- Insertion adds exactly one copy of the new range. -/
theorem perm_inorder_put (t : RTree) (x : IRange) :
    (inorder (put t x)).Perm (x :: inorder t) := by
  induction t with
  | nil => simp [put, inorder]
  | node l iv me r ihl ihr =>
    by_cases h : x.start < iv.start
    · simp only [put, if_pos h, inorder]
      exact ihl.append_right (iv :: inorder r)
    · simp only [put, if_neg h, inorder]
      refine List.Perm.trans ((ihr.cons iv).append_left (inorder l)) ?_
      refine List.Perm.trans ((List.Perm.swap x iv (inorder r)).append_left (inorder l)) ?_
      exact List.perm_middle

/-- On an invariant-satisfying tree, the pruned descent returns exactly the
stored ranges that overlap the query, in key order. -/
theorem match_eq_filter (t : RTree) (q : IRange) (ht : Inv t) :
    matchT t q = (inorder t).filter (fun a => overlaps a q) := by
  induction ht with
  | nil => simp [matchT, inorder]
  | @node l iv me r hl hr hlt hge hme ihl ihr =>
    by_cases hp : me ≤ q.start
    · simp only [matchT, if_pos hp]
      symm
      rw [List.filter_eq_nil_iff]
      intro a ha
      have hstop : a.stop ≤ me := hme a ha
      simp only [overlaps, Bool.and_eq_true, decide_eq_true_eq, not_and]
      intro _
      omega
    · simp only [matchT]
      rw [if_neg hp, ihl, ihr]
      simp only [inorder, List.filter_append, List.filter_cons]
      by_cases hiv : overlaps iv q = true
      · have hr' : iv.start < q.stop := by
          simp only [overlaps, Bool.and_eq_true, decide_eq_true_eq] at hiv
          exact hiv.1
        simp [hiv, hr']
      · by_cases hr' : iv.start < q.stop
        · simp [hiv, hr']
        · have hrt : (inorder r).filter (fun a => overlaps a q) = [] := by
            rw [List.filter_eq_nil_iff]
            intro a ha
            have hge' := hge a ha
            simp only [overlaps, Bool.and_eq_true, decide_eq_true_eq, not_and]
            intro h'
            omega
          simp [hiv, hr', hrt]

/-- Trees built by repeated insertion satisfy the invariant. -/
theorem inv_build (rs : List IRange) : Inv (build rs) := by
  suffices h : ∀ t, Inv t → Inv (rs.foldl put t) from h .nil Inv.nil
  induction rs with
  | nil => intro t ht; exact ht
  | cons x rs ih => intro t ht; exact ih (put t x) (inv_put t x ht)

/-- A built tree stores exactly the inserted ranges, with multiplicity. -/
theorem perm_inorder_build (rs : List IRange) : (inorder (build rs)).Perm rs := by
  suffices h : ∀ t, (inorder (rs.foldl put t)).Perm (rs ++ inorder t) by
    simpa [inorder] using h .nil
  induction rs with
  | nil => intro t; simp
  | cons x rs ih =>
    intro t
    refine List.Perm.trans (ih (put t x)) ?_
    refine List.Perm.trans ((perm_inorder_put t x).append_left rs) ?_
    exact List.perm_middle

/-- C5: for every multiset S of stored ranges and every query q, `match(q)`
returns exactly the members i of S with `i.start < q.end` and `q.start <
i.end` — as multisets (no false positives, no omissions, multiplicities
preserved), hence also as sets. -/
theorem match_exact (rs : List IRange) (q : IRange) :
    (matchT (build rs) q).Perm (rs.filter (fun i => overlaps i q)) ∧
    (∀ i : IRange, i ∈ matchT (build rs) q ↔ (i ∈ rs ∧ overlaps i q = true)) := by
  have h1 := match_eq_filter (build rs) q (inv_build rs)
  have h2 := perm_inorder_build rs
  constructor
  · rw [h1]
    exact h2.filter _
  · intro i
    rw [h1, List.mem_filter]
    exact and_congr_left fun _ => h2.mem_iff

/-- On the source's own `docRanges` data and the test query `[54, 56)`, the
pruned descent agrees with the filter, concretely. -/
theorem docRanges_match_sample :
    matchT (build docRanges) ⟨54, 56⟩ =
      docRanges.filter (fun i => overlaps i ⟨54, 56⟩) := by decide

end RangeTree

namespace Ordinals

/-- A step preserves strict ordinal sortedness of the whole sequence:
insertion places its midpoint ordinal strictly between everything to its
left and everything to its right, and removal only flips a flag. -/
theorem pairwise_step {s s' : List OSeg} (hs : OStep s s')
    (hp : List.Pairwise OrdLt s) : List.Pairwise OrdLt s' := by
  cases hs with
  | ins u v ident =>
    rw [List.pairwise_append] at hp
    obtain ⟨pu, pv, cross⟩ := hp
    have hlt : ∀ a ∈ u, a.ord < betweenOrd u v := by
      rcases u.eq_nil_or_concat with rfl | ⟨u', a0, rfl⟩
      · intro a ha; simp at ha
      · simp only [List.concat_eq_append] at pu cross ⊢
        intro a ha
        have hale : a.ord ≤ a0.ord := by
          rw [List.pairwise_append] at pu
          rcases List.mem_append.mp ha with ha' | ha'
          · exact le_of_lt (pu.2.2 a ha' a0 (by simp))
          · simp at ha'
            subst ha'
            exact le_rfl
        cases hv : v with
        | nil =>
          simp only [betweenOrd, List.getLast?_concat, hv, List.head?_nil]
          linarith
        | cons b0 v' =>
          have hab : a0.ord < b0.ord := cross a0 (by simp) b0 (by simp [hv])
          simp only [betweenOrd, List.getLast?_concat, hv, List.head?_cons]
          linarith
    have hgt : ∀ b ∈ v, betweenOrd u v < b.ord := by
      cases hv : v with
      | nil => intro b hb; simp [hv] at hb
      | cons b0 v' =>
        intro b hb
        have hble : b0.ord ≤ b.ord := by
          subst hv
          rcases List.mem_cons.mp hb with rfl | hb'
          · exact le_rfl
          · exact le_of_lt ((List.pairwise_cons.mp pv).1 b hb')
        rcases u.eq_nil_or_concat with rfl | ⟨u', a0, rfl⟩
        · simp only [betweenOrd, hv, List.head?_cons, List.getLast?_nil]
          linarith
        · simp only [List.concat_eq_append] at cross ⊢
          have hab : a0.ord < b0.ord := cross a0 (by simp) b0 (by simp [hv])
          simp only [betweenOrd, List.getLast?_concat, hv, List.head?_cons]
          linarith
    rw [List.pairwise_append]
    refine ⟨pu, List.pairwise_cons.mpr ⟨hgt, pv⟩, ?_⟩
    intro a ha b hb
    rcases List.mem_cons.mp hb with rfl | hb'
    · exact hlt a ha
    · exact cross a ha b hb'
  | rem u x v =>
    rw [List.pairwise_append] at hp ⊢
    obtain ⟨pu, pxv, cross⟩ := hp
    rw [List.pairwise_cons] at pxv ⊢
    refine ⟨pu, ⟨pxv.1, pxv.2⟩, ?_⟩
    intro a ha b hb
    rcases List.mem_cons.mp hb with rfl | hb'
    · exact cross a ha x (by simp)
    · exact cross a ha b (by simp [hb'])

/-- Every reachable state is strictly sorted by ordinal, tombstones
included. -/
theorem reach_pairwise (s : List OSeg) (h : OReach s) : List.Pairwise OrdLt s := by
  induction h with
  | init => exact List.Pairwise.nil
  | step _ hs ih => exact pairwise_step hs ih

/-- No step changes the ordinal assigned to an existing segment. -/
theorem step_keeps_ordinals {s s' : List OSeg} (hs : OStep s s') :
    ∀ x ∈ s, ∃ x' ∈ s', x'.ident = x.ident ∧ x'.ord = x.ord := by
  cases hs with
  | ins u v ident =>
    intro x hx
    rcases List.mem_append.mp hx with hx' | hx'
    · exact ⟨x, by simp [hx'], rfl, rfl⟩
    · exact ⟨x, by simp [hx'], rfl, rfl⟩
  | rem u y v =>
    intro x hx
    rcases List.mem_append.mp hx with hx' | hx'
    · exact ⟨x, by simp [hx'], rfl, rfl⟩
    · rcases List.mem_cons.mp hx' with rfl | hx''
      · exact ⟨{ x with removed := true }, by simp, rfl, rfl⟩
      · exact ⟨x, by simp [hx''], rfl, rfl⟩

/-- C3: at every reachable state of the tree, any segment A preceding a
segment B in document order (in particular any two live ones) has
`ordinal(A) < ordinal(B)`; and no step — not even an insertion between
existing segments — changes the ordinal a segment was assigned. -/
theorem ordinal_monotone_and_stable (s : List OSeg) (h : OReach s) :
    (∀ i j : Fin s.length, (i : Nat) < (j : Nat) →
      (s.get i).removed = false → (s.get j).removed = false →
      (s.get i).ord < (s.get j).ord) ∧
    (∀ s', OStep s s' → ∀ x ∈ s, ∃ x' ∈ s', x'.ident = x.ident ∧ x'.ord = x.ord) := by
  constructor
  · intro i j hij _ _
    exact List.pairwise_iff_get.mp (reach_pairwise s h) i j hij
  · intro s' hs
    exact step_keeps_ordinals hs

/-- The witness state is reachable: two appends, then an insertion between
them. -/
theorem wstate_reach : OReach wstate := by
  have h0 : OReach [] := OReach.init
  have h1 : OReach [seg0] := by
    have := OReach.step h0 (OStep.ins [] [] 0)
    simpa [betweenOrd, seg0] using this
  have h2 : OReach [seg0, seg1] := by
    have := OReach.step h1 (OStep.ins [seg0] [] 1)
    simpa [betweenOrd, seg0, seg1] using this
  have h3 : OReach [seg0, seg2, seg1] := by
    have := OReach.step h2 (OStep.ins [seg0] [seg1] 2)
    simpa [seg2] using this
  exact h3

/-- C3 witness: in the reachable three-segment state the document order
agrees with the ordinals, and tombstoning the middle segment keeps its
identity and ordinal. -/
theorem ordinal_monotone_and_stable_witness :
    ((wstate.get ⟨0, by decide⟩).removed = false ∧
     (wstate.get ⟨1, by decide⟩).removed = false ∧
     (wstate.get ⟨0, by decide⟩).ord < (wstate.get ⟨1, by decide⟩).ord) ∧
    (∃ x' ∈ [seg0, { seg2 with removed := true }, seg1],
      x'.ident = seg2.ident ∧ x'.ord = seg2.ord) :=
  ⟨⟨by decide, by decide,
    (ordinal_monotone_and_stable wstate wstate_reach).1 ⟨0, by decide⟩ ⟨1, by decide⟩
      (by decide) (by decide) (by decide)⟩,
   (ordinal_monotone_and_stable wstate wstate_reach).2
     [seg0, { seg2 with removed := true }, seg1] (OStep.rem [seg0] seg2 [seg1])
     seg2 (by simp [wstate])⟩

end Ordinals

namespace StackCtx

/-- At position 0 nothing has been consumed and the stack is untouched. -/
theorem scanGo_zero (lab : String) (items : List Item) (st : List String) :
    scanGo lab items 0 st = st := by
  cases items with
  | nil => rfl
  | cons it rest => cases it <;> rfl

/-- Scanning over a text run only advances the position. -/
theorem scan_txt (lab : String) (s : List Char) (rest : List Item) (q : Nat)
    (st : List String) :
    scanGo lab (Item.txt s :: rest) q st = scanGo lab rest (q - s.length) st := by
  cases q with
  | zero => rw [scanGo_zero, Nat.zero_sub, scanGo_zero]
  | succ q => rfl

/-- Scanning over a tile marker only advances the position. -/
theorem scan_tile (lab : String) (rest : List Item) (q : Nat) (st : List String) :
    scanGo lab (Item.tile :: rest) (q + 1) st = scanGo lab rest q st := rfl

/-- Scanning over a nest-begin marker pushes its id when labels match. -/
theorem scan_nb (lab l i : String) (rest : List Item) (q : Nat) (st : List String) :
    scanGo lab (Item.nb l i :: rest) (q + 1) st =
      scanGo lab rest q (if l = lab then i :: st else st) := rfl

/-- Scanning over a nest-end marker pops when labels match. -/
theorem scan_ne (lab l j : String) (rest : List Item) (q : Nat) (st : List String) :
    scanGo lab (Item.ne l j :: rest) (q + 1) st =
      scanGo lab rest q (if l = lab then st.tail else st) := rfl

/-- Layout of a flattened text node before further items. -/
theorem flatN_txt_append (s : List Char) (rest : List Item) :
    flatN (.txt s) ++ rest = Item.txt s :: rest := rfl

/-- Layout of a flattened paragraph before further items. -/
theorem flatN_pg_append (s : List Char) (rest : List Item) :
    flatN (.pg s) ++ rest = Item.tile :: Item.txt s :: rest := rfl

/-- Layout of a flattened row before further items. -/
theorem flatN_row_append (id : String) (ch : DocForest) (rest : List Item) :
    flatN (.row id ch) ++ rest =
      Item.nb "row" id :: (flatF ch ++ (Item.ne "row" ("end-" ++ id) :: rest)) := by
  simp [flatN, List.append_assoc]

/-- Layout of a flattened box before further items. -/
theorem flatN_box_append (id : String) (ch : DocForest) (rest : List Item) :
    flatN (.box id ch) ++ rest =
      Item.nb "box" id :: (flatF ch ++ (Item.ne "box" ("end-" ++ id) :: rest)) := by
  simp [flatN, List.append_assoc]

/-- Layout of an empty flattened forest before further items. -/
theorem flatF_nil_append (rest : List Item) : flatF .nil ++ rest = rest := rfl

/-- Layout of a flattened forest before further items. -/
theorem flatF_cons_append (n : DocNode) (f : DocForest) (rest : List Item) :
    flatF (.cons n f) ++ rest = flatN n ++ (flatF f ++ rest) := by
  simp only [flatF, List.append_assoc]

/-- Positions at or past the end of a forest have no enclosing markers in
it. -/
theorem ctxF_ge (lab : String) :
    ∀ (f : DocForest) (p : Nat), lenF f ≤ p → ctxF lab f p = []
  | .nil, _, _ => rfl
  | .cons n f, p, h => by
    simp only [lenF] at h
    have h1 : ¬(p < lenN n) := by omega
    simp only [ctxF, if_neg h1]
    exact ctxF_ge lab f (p - lenN n) (by omega)

mutual

/-- Scanning wholly past a flattened node leaves the stack unchanged (its
begin and end markers cancel) and continues into the remaining items. -/
theorem scan_consumed_N (lab : String) :
    ∀ (n : DocNode) (p : Nat) (st : List String) (rest : List Item),
      lenN n ≤ p → scanGo lab (flatN n ++ rest) p st = scanGo lab rest (p - lenN n) st
  | .txt s, p, st, rest, _ => by
    rw [flatN_txt_append, scan_txt]
    simp only [lenN]
  | .pg s, p, st, rest, h => by
    simp only [lenN] at h
    obtain ⟨q, rfl⟩ : ∃ q, p = q + 1 := ⟨p - 1, by omega⟩
    rw [flatN_pg_append, scan_tile, scan_txt]
    have harith : q - s.length = q + 1 - lenN (DocNode.pg s) := by
      simp only [lenN]; omega
    rw [harith]
  | .row id ch, p, st, rest, h => by
    simp only [lenN] at h
    obtain ⟨q, rfl⟩ : ∃ q, p = q + 1 := ⟨p - 1, by omega⟩
    rw [flatN_row_append, scan_nb, scan_consumed_F lab ch q _ _ (by omega)]
    obtain ⟨r, hr⟩ : ∃ r, q - lenF ch = r + 1 := ⟨q - lenF ch - 1, by omega⟩
    rw [hr, scan_ne]
    have hst : (if "row" = lab then
        (if "row" = lab then id :: st else st).tail else
        (if "row" = lab then id :: st else st)) = st := by
      by_cases hl : "row" = lab <;> simp [hl]
    rw [hst]
    have harith : r = q + 1 - lenN (DocNode.row id ch) := by
      simp only [lenN]; omega
    rw [harith]
  | .box id ch, p, st, rest, h => by
    simp only [lenN] at h
    obtain ⟨q, rfl⟩ : ∃ q, p = q + 1 := ⟨p - 1, by omega⟩
    rw [flatN_box_append, scan_nb, scan_consumed_F lab ch q _ _ (by omega)]
    obtain ⟨r, hr⟩ : ∃ r, q - lenF ch = r + 1 := ⟨q - lenF ch - 1, by omega⟩
    rw [hr, scan_ne]
    have hst : (if "box" = lab then
        (if "box" = lab then id :: st else st).tail else
        (if "box" = lab then id :: st else st)) = st := by
      by_cases hl : "box" = lab <;> simp [hl]
    rw [hst]
    have harith : r = q + 1 - lenN (DocNode.box id ch) := by
      simp only [lenN]; omega
    rw [harith]

/-- Scanning wholly past a flattened forest leaves the stack unchanged and
continues into the remaining items. -/
theorem scan_consumed_F (lab : String) :
    ∀ (f : DocForest) (p : Nat) (st : List String) (rest : List Item),
      lenF f ≤ p → scanGo lab (flatF f ++ rest) p st = scanGo lab rest (p - lenF f) st
  | .nil, p, st, rest, _ => by
    rw [flatF_nil_append]
    have harith : p = p - lenF DocForest.nil := by simp [lenF]
    rw [← harith]
  | .cons n f, p, st, rest, h => by
    simp only [lenF] at h
    rw [flatF_cons_append, scan_consumed_N lab n p st _ (by omega),
      scan_consumed_F lab f (p - lenN n) st rest (by omega)]
    have harith : p - lenN n - lenF f = p - lenF (DocForest.cons n f) := by
      simp only [lenF]; omega
    rw [harith]

end

mutual

/-- Scanning to a position inside a flattened node yields exactly the
recursive walk's enclosing chain for that node (reversed onto the
accumulator). -/
theorem scan_inside_N (lab : String) :
    ∀ (n : DocNode) (p : Nat) (st : List String) (rest : List Item),
      p < lenN n →
      scanGo lab (flatN n ++ rest) p st = (ctxN lab n p).reverse ++ st
  | .txt s, p, st, rest, h => by
    simp only [lenN] at h
    rw [flatN_txt_append, scan_txt, Nat.sub_eq_zero_of_le (le_of_lt h), scanGo_zero]
    simp [ctxN]
  | .pg s, p, st, rest, h => by
    simp only [lenN] at h
    cases p with
    | zero => rw [scanGo_zero]; simp [ctxN]
    | succ q =>
      rw [flatN_pg_append, scan_tile, scan_txt, Nat.sub_eq_zero_of_le (by omega),
        scanGo_zero]
      simp [ctxN]
  | .row id ch, p, st, rest, h => by
    simp only [lenN] at h
    cases p with
    | zero => rw [scanGo_zero]; simp [ctxN]
    | succ q =>
      rw [flatN_row_append, scan_nb]
      by_cases hq : q < lenF ch
      · rw [scan_inside_F lab ch q _ _ hq]
        by_cases hl : "row" = lab <;> simp [ctxN, hl]
      · have hq' : q = lenF ch := by omega
        subst hq'
        rw [scan_consumed_F lab ch (lenF ch) _ _ le_rfl, Nat.sub_self, scanGo_zero]
        have hc : ctxF lab ch (lenF ch) = [] := ctxF_ge lab ch (lenF ch) le_rfl
        by_cases hl : "row" = lab <;> simp [ctxN, hl, hc]
  | .box id ch, p, st, rest, h => by
    simp only [lenN] at h
    cases p with
    | zero => rw [scanGo_zero]; simp [ctxN]
    | succ q =>
      rw [flatN_box_append, scan_nb]
      by_cases hq : q < lenF ch
      · rw [scan_inside_F lab ch q _ _ hq]
        by_cases hl : "box" = lab <;> simp [ctxN, hl]
      · have hq' : q = lenF ch := by omega
        subst hq'
        rw [scan_consumed_F lab ch (lenF ch) _ _ le_rfl, Nat.sub_self, scanGo_zero]
        have hc : ctxF lab ch (lenF ch) = [] := ctxF_ge lab ch (lenF ch) le_rfl
        by_cases hl : "box" = lab <;> simp [ctxN, hl, hc]

/-- Scanning to a position inside a flattened forest yields exactly the
recursive walk's enclosing chain (reversed onto the accumulator). -/
theorem scan_inside_F (lab : String) :
    ∀ (f : DocForest) (p : Nat) (st : List String) (rest : List Item),
      p < lenF f →
      scanGo lab (flatF f ++ rest) p st = (ctxF lab f p).reverse ++ st
  | .nil, p, st, rest, h => by simp [lenF] at h
  | .cons n f, p, st, rest, h => by
    simp only [lenF] at h
    rw [flatF_cons_append]
    by_cases hp : p < lenN n
    · rw [scan_inside_N lab n p st _ hp]
      simp only [ctxF, if_pos hp]
    · rw [scan_consumed_N lab n p st _ (by omega),
        scan_inside_F lab f (p - lenN n) st rest (by omega)]
      simp only [ctxF, if_neg hp]

end

/-- C4: for every document built from the row/box/pg grammar and every
position in it, the single-pass `getStackContext` equals, per marker
category, the stack of enclosing open-marker ids from a full recursive
walk of the document tree, outer-to-inner. -/
theorem getStackContext_eq_treeWalk (doc : DocForest) (p : Nat) (lab : String)
    (h : p < lenF doc) :
    getStackContext (flatF doc) p lab = ctxF lab doc p := by
  have h2 : flatF doc ++ ([] : List Item) = flatF doc := List.append_nil _
  rw [getStackContext, ← h2, scan_inside_F lab doc p [] [] h]
  simp

/-- C4 witness: in the row > box > pg document, at a position inside the
paragraph text, the single pass and the recursive walk agree and return
the enclosing row and box ids outer-to-inner. -/
theorem getStackContext_eq_treeWalk_witness :
    4 < lenF demoDoc ∧
    getStackContext (flatF demoDoc) 4 "row" = ctxF "row" demoDoc 4 ∧
    getStackContext (flatF demoDoc) 4 "box" = ctxF "box" demoDoc 4 ∧
    ctxF "row" demoDoc 4 = ["row0"] ∧
    ctxF "box" demoDoc 4 = ["box0"] :=
  ⟨by decide, getStackContext_eq_treeWalk demoDoc 4 "row" (by decide),
    getStackContext_eq_treeWalk demoDoc 4 "box" (by decide), by decide, by decide⟩
end StackCtx

namespace Protocol

/-- Replaying one more sequenced operation extends the replayed text. -/
theorem histText_append (t0 : List Char) (l : List SeqMsg) (m : SeqMsg) :
    histText t0 (l ++ [m]) = applyOp (histText t0 l) m.op := by
  simp [histText, List.foldl_append]

/-- The initial state satisfies the invariant. -/
theorem inv_init (n : Nat) (t0 : List Char) : Inv t0 (initW n t0) := by
  constructor
  · simp [initW, histText]
  · intro c hc
    simp only [initW] at hc ⊢
    rw [List.getElem_replicate]
    simp [clientInv, initC, histText]

/-- A client's view of the server queue after a raw message is appended. -/
theorem filter_append_map_raw (sQ : List RawMsg) (r : RawMsg) (c : Nat) :
    ((sQ ++ [r]).filter (fun x => x.cid == c)).map RawMsg.op =
      (sQ.filter (fun x => x.cid == c)).map RawMsg.op ++
        (if r.cid == c then [r.op] else []) := by
  rw [List.filter_append]
  by_cases h : r.cid == c <;> simp [h]

/-- Issuing a local edit preserves the invariant: it only appends to the
issuer's pending overlay and to the server's raw queue. -/
theorem inv_issue (t0 : List Char) (w : WState) (c : Nat) (op : Op)
    (h : Inv t0 w) : Inv t0 (issueW w c op) := by
  obtain ⟨hs, hcl⟩ := h
  cases hget : w.clients[c]? with
  | none =>
    have hw : issueW w c op = w := by simp [issueW, hget]
    rw [hw]
    exact ⟨hs, hcl⟩
  | some cl =>
    obtain ⟨hlen, hgetc⟩ := List.getElem?_eq_some.mp hget
    simp only [issueW, hget]
    refine ⟨hs, ?_⟩
    intro c' hc'
    have hc2 : c' < w.clients.length := by simpa using hc'
    dsimp only
    by_cases hcc : c' = c
    · subst hcc
      rw [List.getElem_set_self (by simpa using hc')]
      obtain ⟨h1, h2, h3, h4⟩ := hcl c' hc2
      rw [hgetc] at h1 h2 h3 h4
      refine ⟨h1, h2, h3, ?_⟩
      dsimp only
      rw [h4, filter_append_map_raw]
      have hbt : ((⟨c', cl.applied, op⟩ : RawMsg).cid == c') = true := by
        simp
      rw [hbt]
      simp [List.append_assoc]
    · have hne : c ≠ c' := fun he => hcc he.symm
      rw [List.getElem_set_ne hne (by simpa using hc')]
      obtain ⟨h1, h2, h3, h4⟩ := hcl c' hc2
      refine ⟨h1, h2, h3, ?_⟩
      rw [h4, filter_append_map_raw]
      have hbf : ((⟨c, cl.applied, op⟩ : RawMsg).cid == c') = false := by
        simpa using hne
      rw [hbf]
      simp

/-- Sequencing one raw operation preserves the invariant: the log grows by
one entry, which also lands at the tail of every inbound queue, and the
sequenced message moves from the issuer's raw view to its echo view. -/
theorem inv_seq (t0 : List Char) (w : WState) (h : Inv t0 w) : Inv t0 (seqW w) := by
  obtain ⟨hs, hcl⟩ := h
  cases hq : w.sQ with
  | nil =>
    have hw : seqW w = w := by simp [seqW, hq]
    rw [hw]
    exact ⟨hs, hcl⟩
  | cons r rest =>
    simp only [seqW, hq]
    constructor
    · dsimp only
      rw [histText_append, ← hs]
    · intro c hc
      have hc2 : c < w.clients.length := by simpa using hc
      dsimp only
      rw [List.getElem_map]
      obtain ⟨h1, h2, h3, h4⟩ := hcl c hc2
      rw [hq] at h4
      refine ⟨?_, ?_, ?_, ?_⟩
      · dsimp only
        simp only [List.length_append, List.length_singleton]
        omega
      · dsimp only
        rw [List.take_append_of_le_length h1]
        exact h2
      · dsimp only
        rw [List.drop_append_of_le_length h1, ← h3]
      · dsimp only
        rw [h4, List.filter_append, List.filter_cons]
        cases hrc : r.cid == c
        · simp [hrc]
        · simp [hrc, List.append_assoc]

/-- Delivering one inbound message preserves the invariant: the client's
applied prefix grows by the exact next log entry, and an echo retires the
matching pending operation. -/
theorem inv_deliver (t0 : List Char) (w : WState) (c : Nat) (h : Inv t0 w) :
    Inv t0 (deliverW w c) := by
  obtain ⟨hs, hcl⟩ := h
  cases hget : w.clients[c]? with
  | none =>
    have hw : deliverW w c = w := by simp [deliverW, hget]
    rw [hw]
    exact ⟨hs, hcl⟩
  | some cl =>
    obtain ⟨hlen, hgetc⟩ := List.getElem?_eq_some.mp hget
    cases hq : cl.inQ with
    | nil =>
      have hw : deliverW w c = w := by simp [deliverW, hget, hq]
      rw [hw]
      exact ⟨hs, hcl⟩
    | cons m rest =>
      simp only [deliverW, hget, hq]
      obtain ⟨h1, h2, h3, h4⟩ := hcl c hlen
      rw [hgetc] at h1 h2 h3 h4
      rw [hq] at h3 h4
      have hlt : cl.applied < w.slog.length := by
        by_contra hc'
        push_neg at hc'
        rw [List.drop_eq_nil_of_le hc'] at h3
        exact absurd h3 (by simp)
      have hdrop : m :: rest = w.slog[cl.applied] :: w.slog.drop (cl.applied + 1) := by
        rw [h3]
        exact (List.getElem_cons_drop w.slog cl.applied hlt).symm
      have hmeq : m = w.slog[cl.applied] := by
        injection hdrop
      have hrest : rest = w.slog.drop (cl.applied + 1) := by
        injection hdrop with hh ht
      refine ⟨hs, ?_⟩
      intro c' hc'
      have hc2 : c' < w.clients.length := by simpa using hc'
      dsimp only
      by_cases hcc : c' = c
      · subst hcc
        rw [List.getElem_set_self (by simpa using hc')]
        refine ⟨?_, ?_, ?_, ?_⟩
        · show cl.applied + 1 ≤ w.slog.length
          omega
        · show applyOp cl.text m.op = histText t0 (w.slog.take (cl.applied + 1))
          rw [h2, List.take_succ, List.getElem?_eq_getElem hlt]
          simp only [Option.toList_some]
          rw [histText_append, hmeq]
        · show rest = w.slog.drop (cl.applied + 1)
          exact hrest
        · show (if m.cid == c' then cl.pending.tail else cl.pending) =
            (rest.filter (fun x => x.cid == c')).map SeqMsg.op ++
              (w.sQ.filter (fun r => r.cid == c')).map RawMsg.op
          rw [h4, List.filter_cons]
          cases hmc : m.cid == c'
          · simp [hmc]
          · simp [hmc]
      · have hne : c ≠ c' := fun he => hcc he.symm
        rw [List.getElem_set_ne hne (by simpa using hc')]
        exact hcl c' hc2

/-- The invariant holds in every reachable state. -/
theorem inv_reach (n : Nat) (t0 : List Char) (w : WState) (h : PReach n t0 w) :
    Inv t0 w := by
  induction h with
  | init => exact inv_init n t0
  | step _ hs ih =>
    cases hs with
    | issue c op => exact inv_issue t0 _ c op ih
    | sequenceOne => exact inv_seq t0 _ ih
    | deliverOne c => exact inv_deliver t0 _ c ih

/-- C1: in every run of the client/server protocol — concurrent inserts and
removes, messages drained in arbitrary granularity — whenever the server
has sequenced every issued operation (its inbound queue empty) and every
client has applied all sequenced operations up to the common sequence
number (all inbound queues drained), `getText` on every replica equals
`getText` on the server. -/
theorem convergence (n : Nat) (t0 : List Char) (w : WState)
    (hr : PReach n t0 w) (hq : w.sQ = [])
    (hdrained : ∀ cl ∈ w.clients, cl.inQ = []) :
    ∀ cl ∈ w.clients, visText cl = w.stext := by
  obtain ⟨hs, hcl⟩ := inv_reach n t0 w hr
  intro cl hmem
  obtain ⟨i, hi⟩ := List.mem_iff_get.mp hmem
  rw [List.get_eq_getElem] at hi
  obtain ⟨h1, h2, h3, h4⟩ := hcl i.val i.isLt
  rw [hi] at h1 h2 h3 h4
  have hinQ : cl.inQ = [] := hdrained cl hmem
  rw [hinQ] at h3
  have hge : w.slog.length ≤ cl.applied := by
    have hlen := congrArg List.length h3
    simp only [List.length_nil, List.length_drop] at hlen
    omega
  have happ : cl.applied = w.slog.length := le_antisymm h1 hge
  have hpend : cl.pending = [] := by
    rw [h4, hinQ, hq]
    simp
  rw [visText, hpend]
  simp only [List.foldl_nil]
  rw [h2, happ, List.take_length, ← hs]

/-- The witness run is a run of the protocol. -/
theorem wdemo_reach : PReach 2 t0demo wdemo :=
  PReach.step (PReach.step (PReach.step (PReach.step (PReach.step (PReach.step
    (PReach.step (PReach.step PReach.init
      (PStep.issue _ 0 (Op.ins 0 "x".toList)))
      (PStep.issue _ 1 (Op.del 0 1)))
      (PStep.sequenceOne _))
      (PStep.sequenceOne _))
      (PStep.deliverOne _ 0))
      (PStep.deliverOne _ 0))
      (PStep.deliverOne _ 1))
    (PStep.deliverOne _ 1)

/-- C1 witness: in the concrete two-client run with a concurrent insert and
remove, all queues are drained and every replica's visible text equals the
server's. -/
theorem convergence_witness :
    wdemo.sQ = [] ∧ (∀ cl ∈ wdemo.clients, cl.inQ = []) ∧
    (∀ cl ∈ wdemo.clients, visText cl = wdemo.stext) ∧
    wdemo.stext = "ab".toList :=
  ⟨by decide, by decide,
    convergence 2 t0demo wdemo wdemo_reach (by decide) (by decide), by decide⟩

end Protocol
